import Mathlib

/-!
Verification of the hoto metadata-extraction and renaming tool.

Shallow embedding of `hoto.py` (single-file Python program): the document
loader (`readPath`), the CSS-selector engine (`Selector`), the descriptor
parser (`RDF`), the filename sanitizer (`filenameClean`), and the template
evaluation pipeline of `processFile`/`parseArgs`.

Strings are modelled as `List Char` where character-level processing
matters; bytes as `List Nat` (each < 256 at meaningful inputs).  Python
exceptions are modelled with `Except PyError`.
-/

set_option autoImplicit false
set_option maxRecDepth 8192

/-- Abbreviation: the character list of a string literal. -/
def strL (s : String) : List Char := s.toList

/-- Python exception kinds raised by the code paths modelled here. -/
inductive PyError where
  | unboundLocal
  | unicodeDecode
  | indexError
  | valueError
  deriving DecidableEq, Repr

instance {ε α : Type} [DecidableEq ε] [DecidableEq α] : DecidableEq (Except ε α) := fun a b => by
  cases a with
  | error e =>
    cases b with
    | error f =>
      exact if h : e = f then isTrue (by rw [h])
        else isFalse (by intro hc; injection hc; contradiction)
    | ok bv => exact isFalse (by intro hc; injection hc)
  | ok av =>
    cases b with
    | error f => exact isFalse (by intro hc; injection hc)
    | ok bv =>
      exact if h : av = bv then isTrue (by rw [h])
        else isFalse (by intro hc; injection hc; contradiction)

/-! ## UTF-8 decoding (models of Python `bytes.decode`)

`utf8DecodeStrict` models `b.decode("utf-8")` (raises on invalid input,
modelled as `none`); `utf8DecodeReplace` models
`decode(encoding="utf-8", errors="replace")`, which substitutes U+FFFD
for undecodable bytes character-by-character and never fails. -/

/-- Is `b` a UTF-8 continuation byte (`0x80..0xBF`)? -/
def utf8Cont (b : Nat) : Bool := 128 ≤ b && b < 192

/-- Scalar value of a 2-byte UTF-8 sequence. -/
def utf8Val2 (b0 b1 : Nat) : Nat := (b0 - 192) * 64 + (b1 - 128)

/-- Scalar value of a 3-byte UTF-8 sequence. -/
def utf8Val3 (b0 b1 b2 : Nat) : Nat :=
  (b0 - 224) * 4096 + (b1 - 128) * 64 + (b2 - 128)

/-- Scalar value of a 4-byte UTF-8 sequence. -/
def utf8Val4 (b0 b1 b2 b3 : Nat) : Nat :=
  (b0 - 240) * 262144 + (b1 - 128) * 4096 + (b2 - 128) * 64 + (b3 - 128)

/-- Second-byte range restriction for 3-byte sequences (excludes overlong
forms and surrogates). -/
def utf8Ok3 (b0 b1 : Nat) : Bool :=
  (b0 ≠ 224 || 160 ≤ b1) && (b0 ≠ 237 || b1 < 160)

/-- Second-byte range restriction for 4-byte sequences (excludes overlong
forms and values above U+10FFFF). -/
def utf8Ok4 (b0 b1 : Nat) : Bool :=
  (b0 ≠ 240 || 144 ≤ b1) && (b0 ≠ 244 || b1 < 144)

/-- Decode one multi-byte UTF-8 sequence led by `b` (not an ASCII byte):
the decoded character and the remaining bytes, or `none` when `b` starts
no valid sequence here. -/
def utf8Multi (b : Nat) (rest : List Nat) : Option (Char × List Nat) :=
  if 194 ≤ b && b ≤ 223 then
    match rest with
    | b1 :: r => if utf8Cont b1 then some (Char.ofNat (utf8Val2 b b1), r) else none
    | [] => none
  else if 224 ≤ b && b ≤ 239 then
    match rest with
    | b1 :: b2 :: r =>
      if utf8Cont b1 && utf8Cont b2 && utf8Ok3 b b1 then
        some (Char.ofNat (utf8Val3 b b1 b2), r)
      else none
    | _ => none
  else if 240 ≤ b && b ≤ 244 then
    match rest with
    | b1 :: b2 :: b3 :: r =>
      if utf8Cont b1 && utf8Cont b2 && utf8Cont b3 && utf8Ok4 b b1 then
        some (Char.ofNat (utf8Val4 b b1 b2 b3), r)
      else none
    | _ => none
  else none

/-- Strict UTF-8 decoding; `none` models `UnicodeDecodeError`.
Structural recursion on a fuel argument (at least one byte is consumed
per step, so `bs.length` always suffices). -/
def utf8DecodeStrictFuel : Nat → List Nat → Option (List Char)
  | _, [] => some []
  | 0, _ :: _ => none
  | f + 1, b :: rest =>
    if b < 128 then
      (utf8DecodeStrictFuel f rest).map (Char.ofNat b :: ·)
    else
      match utf8Multi b rest with
      | none => none
      | some (c, r) => (utf8DecodeStrictFuel f r).map (c :: ·)

/-- `b.decode("utf-8")` (raises on invalid input, modelled as `none`). -/
def utf8DecodeStrict (bs : List Nat) : Option (List Char) :=
  utf8DecodeStrictFuel bs.length bs

/-- The U+FFFD replacement character. -/
def replChar : Char := Char.ofNat 0xFFFD

/-- Replacing UTF-8 decoding: total; an undecodable lead byte becomes one
U+FFFD and decoding resumes at the following byte (character-by-character
replacement; CPython's maximal-subpart grouping of truncated sequences is
abstracted to per-byte replacement, which no theorem below depends on). -/
def utf8DecodeReplaceFuel : Nat → List Nat → List Char
  | _, [] => []
  | 0, _ :: _ => []
  | f + 1, b :: rest =>
    if b < 128 then
      Char.ofNat b :: utf8DecodeReplaceFuel f rest
    else
      match utf8Multi b rest with
      | none => replChar :: utf8DecodeReplaceFuel f rest
      | some (c, r) => c :: utf8DecodeReplaceFuel f r

/-- `decode(encoding="utf-8", errors="replace")`. -/
def utf8DecodeReplace (bs : List Nat) : List Char :=
  utf8DecodeReplaceFuel bs.length bs

/-! ## Document loader (`readPath`, hoto.py lines 218-247)

An archive is modelled as its ordered member list: names paired with raw
byte contents (`zf.namelist()` enumeration order).  In the zip branch the
source initializes `rdfStr = None` but never initializes `htmlStr` before
the loop, so `html = none` at the end of the loop models the Python
`UnboundLocalError` at `return htmlStr, rdfStr`, while `rdf = none` models
a bound `None`.  The source tests `/index.rdf` and `/index.html` with two
separate `if`s; no name can end with both, so sequential `if`/`else if`
is equivalent. -/

def readPathZipLoop : List (List Char × List Nat) → Option (List Char) → Option (List Char) →
    Except PyError (List Char × Option (List Char))
  | [], html, rdf =>
    match html with
    | some h => .ok (h, rdf)
    | none => .error .unboundLocal
  | (name, bs) :: rest, html, rdf =>
    if (strL "/index.rdf").isSuffixOf name then
      match utf8DecodeStrict bs with
      | none => .error .unicodeDecode
      | some t => readPathZipLoop rest html (some t)
    else if (strL "/index.html").isSuffixOf name then
      match utf8DecodeStrict bs with
      | none => .error .unicodeDecode
      | some t => readPathZipLoop rest (some t) rdf
    else
      readPathZipLoop rest html rdf

/-- The `.maff`/`.zip` branch of `readPath`. -/
def readPathZip (entries : List (List Char × List Nat)) :
    Except PyError (List Char × Option (List Char)) :=
  readPathZipLoop entries none none

/-- The plain-document branch of `readPath`:
`path.read_text(encoding="utf-8", errors="replace")`, paired with the
`None` descriptor text. -/
def readPathPlain (bs : List Nat) : List Char × Option (List Char) :=
  (utf8DecodeReplace bs, none)

/-! ## Selector engine (`Selector`, hoto.py lines 162-190)

The pyQuery document is abstracted to its observable behaviour: `textOf`
gives `self.d(selector).text()` (the combined text of the matched
elements, `""` when the selector matches nothing) and `metaContent`
gives `self.d('meta[name="..."]').attr("content")` (`none` models the
Python `None` for a missing meta element or attribute).  `re.sub(find,
replace, s)` is abstracted to an arbitrary text transform, since the
regex engine is stdlib, not code of this repository. -/

structure PQDoc where
  textOf : String → String
  metaContent : String → Option String

/-- Whitespace as stripped by Python `str.strip()` (ASCII subset; the
claims only exercise these characters). -/
def isPySpace (c : Char) : Bool :=
  c = ' ' || c = '\t' || c = '\n' || c = '\x0d' || c = '\x0b' || c = '\x0c'

/-- Model of Python `str.strip()`. -/
def pyStrip (s : List Char) : List Char :=
  ((s.dropWhile isPySpace).reverse.dropWhile isPySpace).reverse

/-- `Selector.__get_selector__`: query text, optional find/replace
transform, then `s.strip()[:maxChars]`. -/
def getSelector (d : PQDoc) (selector : String) (tr : Option (List Char → List Char))
    (maxChars : Nat) : List Char :=
  let s := strL (d.textOf selector)
  let s := match tr with
    | some f => f s
    | none => s
  (pyStrip s).take maxChars

/-- `Selector.__getattr__` (dot notation `sel.h1`): the two reserved
names read the meta `content` attribute (Python `None` ↦ `""` through
`if not s`); anything else is a plain selector query.  The final
`s.strip()` is applied to a nonempty result. -/
def selAttr (d : PQDoc) (name : String) : List Char :=
  let s : List Char :=
    if name = "__description" then strL (((d.metaContent "description").getD ""))
    else if name = "__keywords" then strL (((d.metaContent "keywords").getD ""))
    else getSelector d name none 160
  if s = [] then [] else pyStrip s

/-- `Selector.__call__` (function syntax `sel("p:first")`). -/
def selCall (d : PQDoc) (selector : String) (tr : Option (List Char → List Char)) : List Char :=
  getSelector d selector tr 160

/-! ## Python values flowing into f-string substitution

`processFile` renders `eval('f"' + format + '"')`; the values reaching a
substitution span are strings (selector results, dict entries), ints
(`rdf.year`), `datetime` objects, or `None` (a `dict.get` miss).
`PyVal.fstr` is how an f-string span renders each of them; in particular
`None` renders as the literal text `None`. -/

inductive PyVal where
  | vStr (s : String)
  | vInt (n : Int)
  | vNone
  | vDT (year month day hour minute second : Nat)
  deriving DecidableEq, Repr

/-- Zero-padded 2-digit decimal. -/
def pad2 (n : Nat) : String := if n < 10 then "0" ++ toString n else toString n

/-- Zero-padded 4-digit decimal. -/
def pad4 (n : Nat) : String :=
  if n < 10 then "000" ++ toString n
  else if n < 100 then "00" ++ toString n
  else if n < 1000 then "0" ++ toString n
  else toString n

/-- How an f-string substitution span renders each value (`format(v, "")`).
The `datetime` rendering omits the timezone suffix; no theorem below
depends on it. -/
def PyVal.fstr : PyVal → String
  | .vStr s => s
  | .vInt n => toString n
  | .vNone => "None"
  | .vDT y mo d h mi s =>
      pad4 y ++ "-" ++ pad2 mo ++ "-" ++ pad2 d ++ " " ++ pad2 h ++ ":" ++ pad2 mi ++ ":" ++ pad2 s

/-! ## Python dict with insertion order (base of class `RDF(dict)`) -/

/-- `dict` lookup returning `none` on a missing key (`dict.__contains__`
/ plain indexing of present keys). -/
def dictFind? (m : List (String × PyVal)) (k : String) : Option PyVal :=
  (m.find? (fun p => p.1 == k)).map (·.2)

/-- `RDF.__getattr__ = dict.get`: a missing key yields Python `None`. -/
def dictGetPy (m : List (String × PyVal)) (k : String) : PyVal :=
  match dictFind? m k with
  | some v => v
  | none => .vNone

/-- `dict.__setitem__` preserving insertion order (an existing key keeps
its position, a new key is appended). -/
def dictSetPy (m : List (String × PyVal)) (k : String) (v : PyVal) : List (String × PyVal) :=
  if m.any (fun p => p.1 == k) then
    m.map (fun p => if p.1 == k then (k, v) else p)
  else m ++ [(k, v)]

/-! ## Descriptor parser (`RDF`, hoto.py lines 192-216)

The parsed XML tree (`etree.fromstring`) is modelled as `XmlElem`;
`attrib.values()` is the ordered list of attribute values.  The key
match is the source's `grandchild.tag.endswith("}" + key)` — lxml tag
names are namespace-qualified as `{uri}localname`. -/

structure XmlElem where
  tag : String
  attrs : List (String × String)
  children : List XmlElem

/-- The recognized descriptor keys, in the order of the source's
`"title originalurl archivetime indexfilename".split(" ")`. -/
def rdfKeys : List String := ["title", "originalurl", "archivetime", "indexfilename"]

/-- Ordered base dict of raw string values (before derivation). -/
def baseFind? (m : List (String × String)) (k : String) : Option String :=
  (m.find? (fun p => p.1 == k)).map (·.2)

/-- `dict.__setitem__` on the raw string dict. -/
def baseSet (m : List (String × String)) (k v : String) : List (String × String) :=
  if m.any (fun p => p.1 == k) then
    m.map (fun p => if p.1 == k then (k, v) else p)
  else m ++ [(k, v)]

/-- One turn of the inner `for key in ...` loop: on a tag-suffix match the
value is `grandchild.attrib.values()[0]`, which raises `IndexError`
when the element carries no attributes. -/
def rdfKeyStep (gc : XmlElem) (m : List (String × String)) (key : String) :
    Except PyError (List (String × String)) :=
  if ('\x7d' :: strL key).isSuffixOf (strL gc.tag) then
    match gc.attrs with
    | [] => .error .indexError
    | a :: _ => .ok (baseSet m key a.2)
  else .ok m

/-- The three nested loops of `RDF.__init__` collecting the base keys. -/
def rdfCollect (root : XmlElem) : Except PyError (List (String × String)) :=
  root.children.foldlM
    (fun m child =>
      child.children.foldlM
        (fun m gc => rdfKeys.foldlM (rdfKeyStep gc) m)
        m)
    []

/-! ### Models of the stdlib date/URL helpers

`parsedate_to_datetime`, `strftime` and `urlparse` are Python stdlib,
not code of this repository; they are modelled from their documented
behaviour on the RFC-2822 date strings and absolute URLs the descriptor
carries. -/

/-- Split a character list at every occurrence of `sep` (like
`str.split(sep)`: adjacent separators yield empty fields). -/
def splitOnChar (sep : Char) : List Char → List (List Char)
  | [] => [[]]
  | c :: rest =>
    match splitOnChar sep rest with
    | [] => if c = sep then [[], []] else [[c]]
    | t :: ts => if c = sep then [] :: t :: ts else (c :: t) :: ts

/-- Decimal digit value. -/
def digitVal (c : Char) : Option Nat :=
  if '0' ≤ c ∧ c ≤ '9' then some (c.toNat - 48) else none

/-- Accumulating decimal parse. -/
def parseNatCore : List Char → Nat → Option Nat
  | [], acc => some acc
  | c :: rest, acc =>
    match digitVal c with
    | some d => parseNatCore rest (acc * 10 + d)
    | none => none

/-- `int(s)` on plain digit strings (the only shape the date fields take). -/
def parseNatL (s : List Char) : Option Nat :=
  if s.isEmpty then none else parseNatCore s 0

/-- Month-name token of an RFC-2822 date. -/
def monthNum (m : List Char) : Option Nat :=
  (([("Jan", 1), ("Feb", 2), ("Mar", 3), ("Apr", 4), ("May", 5), ("Jun", 6), ("Jul", 7),
     ("Aug", 8), ("Sep", 9), ("Oct", 10), ("Nov", 11), ("Dec", 12)] :
      List (String × Nat)).find? (fun p => strL p.1 == m)).map (·.2)

/-- Model of `email.utils.parsedate_to_datetime` on
`[Ddd,] DD Mon YYYY HH:MM:SS ZONE` strings; `none` models the exception
raised on a malformed date. -/
def parseRFC2822 (s : String) : Option (Nat × Nat × Nat × Nat × Nat × Nat) :=
  let toks := (splitOnChar ' ' ((strL s).map (fun c => if c = ',' then ' ' else c))).filter
    (fun t => ¬ t.isEmpty)
  let core : Option (List Char × List Char × List Char × List Char) :=
    match toks with
    | [_, d, mon, y, t, _] => some (d, mon, y, t)
    | [d, mon, y, t, _] => some (d, mon, y, t)
    | _ => none
  match core with
  | none => none
  | some (d, mon, y, t) =>
    match parseNatL d, monthNum mon, parseNatL y with
    | some dn, some mn, some yn =>
      match (splitOnChar ':' t).map parseNatL with
      | [some h, some mi, some sec] => some (yn, mn, dn, h, mi, sec)
      | _ => none
    | _, _, _ => none

/-- Gregorian leap year. -/
def isLeap (y : Nat) : Bool := (y % 4 = 0 && y % 100 ≠ 0) || y % 400 = 0

/-- Days in a month. -/
def daysInMonth (y m : Nat) : Nat :=
  if m = 2 then (if isLeap y then 29 else 28)
  else if m = 4 || m = 6 || m = 9 || m = 11 then 30
  else 31

/-- Ordinal day of the year (1-based). -/
def ordinalDay (y m d : Nat) : Nat :=
  (List.range (m - 1)).foldl (fun a i => a + daysInMonth y (i + 1)) 0 + d

/-- Proleptic-Gregorian day number with 0001-01-01 ↦ 1 (a Monday). -/
def daysFromCivil (y m d : Nat) : Nat :=
  365 * (y - 1) + ((y - 1) / 4 - (y - 1) / 100) + (y - 1) / 400 + ordinalDay y m d

/-- ISO weekday: Monday = 1 … Sunday = 7. -/
def isoWeekday (y m d : Nat) : Nat := (daysFromCivil y m d - 1) % 7 + 1

/-- Number of ISO weeks in year `y` (52 or 53). -/
def isoWeeksInYear (y : Nat) : Nat :=
  if isoWeekday y 1 1 = 4 || (isLeap y && isoWeekday y 1 1 = 3) then 53 else 52

/-- ISO week number (`strftime %V`). -/
def isoWeek (y m d : Nat) : Nat :=
  let w := (ordinalDay y m d + 10 - isoWeekday y m d) / 7
  if w = 0 then isoWeeksInYear (y - 1)
  else if isoWeeksInYear y < w then 1
  else w

/-- `strftime("%a")` weekday abbreviation from the ISO weekday number. -/
def weekdayAbbrev (w : Nat) : String :=
  match w with
  | 1 => "Mon" | 2 => "Tue" | 3 => "Wed" | 4 => "Thu" | 5 => "Fri" | 6 => "Sat" | 7 => "Sun"
  | _ => ""

/-- `self.archiveDatetime.strftime("%Y-%m-%d w%V %a")`. -/
def strftimeHoto (y m d : Nat) : String :=
  pad4 y ++ "-" ++ pad2 m ++ "-" ++ pad2 d ++ " w" ++ pad2 (isoWeek y m d) ++ " " ++
    weekdayAbbrev (isoWeekday y m d)

/-- Index (0-based) of the first occurrence of `pat` in `s`, if any. -/
def findSub (pat : List Char) : List Char → Option Nat
  | [] => none
  | c :: rest =>
    if pat.isPrefixOf (c :: rest) then some 0
    else (findSub pat rest).map (· + 1)

/-- Model of `urlparse(u).netloc`: the text after the first `"://"` (or
after a leading `"//"`), up to the next `/`, `?` or `#`; empty when the
URL carries no network location. -/
def urlNetloc (u : String) : String :=
  let cs := strL u
  let nl : List Char :=
    match findSub (strL "://") cs with
    | some i => (cs.drop (i + 3)).takeWhile (fun c => c ≠ '/' && c ≠ '?' && c ≠ '#')
    | none =>
      if (strL "//").isPrefixOf cs then
        (cs.drop 2).takeWhile (fun c => c ≠ '/' && c ≠ '?' && c ≠ '#')
      else []
  String.mk nl

/-- The derivation step of `RDF.__init__` (lines 207-212): starting from
the collected base dict, add `archiveDatetime`, `archived` and `year`
when `archivetime` is present (a malformed date raises, modelled as
`.valueError`), then `host` when `originalurl` is present. -/
def rdfDerive (base : List (String × String)) : Except PyError (List (String × PyVal)) :=
  let m : List (String × PyVal) := base.map (fun p => (p.1, PyVal.vStr p.2))
  let step1 : Except PyError (List (String × PyVal)) :=
    match baseFind? base "archivetime" with
    | none => .ok m
    | some at_ =>
      match parseRFC2822 at_ with
      | none => .error .valueError
      | some (y, mo, d, h, mi, sec) =>
        .ok (dictSetPy (dictSetPy (dictSetPy m
                "archiveDatetime" (.vDT y mo d h mi sec))
                "archived" (.vStr (strftimeHoto y mo d)))
                "year" (.vInt y))
  step1.map (fun m =>
    match baseFind? base "originalurl" with
    | none => m
    | some u => dictSetPy m "host" (.vStr (urlNetloc u)))

/-- `RDF(rdfStr)` end to end: an absent or empty descriptor text yields
the empty dict (lines 195-197); otherwise the base keys are collected
and the derived entries are added eagerly. -/
def rdfFromTree (root? : Option XmlElem) : Except PyError (List (String × PyVal)) :=
  match root? with
  | none => .ok []
  | some root => (rdfCollect root).bind rdfDerive

/-! ## Filename sanitizer (`filenameClean`, hoto.py lines 249-260) -/

/-- Composite model of stdlib
`unicodedata.normalize("NFKD", s).encode("ascii", "ignore")` per
character: ASCII characters are NFKD-invariant and survive the encode;
a finite table gives the ASCII residue of the non-ASCII characters used
in this development; every other character (decomposing to nothing
ASCII-representable) is dropped by `errors="ignore"`. -/
def nfkdTable : List (Char × List Char) :=
  [('ä', ['a']), ('ö', ['o']), ('å', ['a']), ('Ä', ['A']), ('Ö', ['O']), ('Å', ['A']),
   ('é', ['e']), ('․', ['.']), ('…', ['.', '.', '.'])]

/-- Per-character NFKD + ascii/ignore. -/
def nfkdAscii (c : Char) : List Char :=
  if c.toNat < 128 then [c]
  else ((nfkdTable.find? (fun p => p.1 == c)).map (·.2)).getD []

/-- `unicodedata.normalize("NFKD", s).encode("ascii", "ignore").decode("ascii")`. -/
def pyNFKDascii (s : List Char) : List Char := (s.map nfkdAscii).flatten

/-- The character class of the source's `re.sub("[:/^\[\]\.]", "_", s)`:
the caret sits inside the class (not first), hence is a literal member. -/
def stripChars : List Char := [':', '/', '^', '[', ']', '.']

/-- One character of the `re.sub` replacement. -/
def sanitizeChar (c : Char) : Char := if c ∈ stripChars then '_' else c

/-- Python `s.replace("." + ext, "")`: removes every non-overlapping
occurrence of `'.' :: ext`, scanning left to right and resuming after
each removed occurrence.  Structural recursion on a fuel argument (one
unit per examined character, so `s.length` always suffices) keeps the
definition kernel-computable. -/
def removeDotExtFuel (ext : List Char) : Nat → List Char → List Char
  | _, [] => []
  | 0, s => s
  | f + 1, c :: rest =>
    if ('.' :: ext).isPrefixOf (c :: rest) then removeDotExtFuel ext f (rest.drop ext.length)
    else c :: removeDotExtFuel ext f rest

/-- `s.replace("." + ext, "")`. -/
def removeDotExt (ext : List Char) (s : List Char) : List Char :=
  removeDotExtFuel ext s.length s

/-- `filenameClean(s, keepext)`.  `keepext = none` models the Python
default `None`; `some []` models an empty string, equally falsy in the
source's `if keepext and s.endswith("." + keepext)`. -/
def filenameClean (s : List Char) (keepext : Option (List Char)) : List Char :=
  let ext := keepext.getD []
  let s1 := if ¬ ext.isEmpty ∧ ('.' :: ext).isSuffixOf s then removeDotExt ext s else s
  let s2 := pyNFKDascii s1
  let s3 := s2.map sanitizeChar
  if ext.isEmpty then s3 else s3 ++ '.' :: ext

/-- The sanitizer as claim C7 words it (for comparison with the source
behaviour): only a *trailing* `"." + ext` is stripped, and exactly the
five characters `:`, `/`, `[`, `]`, `.` are replaced (no caret). -/
def filenameCleanClaimC7 (s : List Char) (keepext : Option (List Char)) : List Char :=
  let ext := keepext.getD []
  let s1 := if ¬ ext.isEmpty ∧ ('.' :: ext).isSuffixOf s
    then s.take (s.length - (ext.length + 1)) else s
  let s2 := pyNFKDascii s1
  let s3 := s2.map (fun c => if c ∈ ([':', '/', '[', ']', '.'] : List Char) then '_' else c)
  if ext.isEmpty then s3 else s3 ++ '.' :: ext

/-- A found occurrence index lies inside the string. -/
theorem findSub_lt (pat : List Char) :
    ∀ (s : List Char) (i : Nat), findSub pat s = some i → i < s.length := by
  intro s
  induction s with
  | nil => intro i h; simp [findSub] at h
  | cons c rest ih =>
    intro i h
    simp only [findSub] at h
    by_cases hp : pat.isPrefixOf (c :: rest) = true
    · rw [if_pos hp] at h
      simp only [Option.some.injEq] at h
      simp [← h]
    · rw [if_neg hp] at h
      simp only [Option.map_eq_some'] at h
      obtain ⟨j, hj, hji⟩ := h
      have := ih j hj
      simp only [List.length_cons]
      omega

/-- `s.replace(pat, "")` written independently of `removeDotExt`: cut at
the first occurrence index and recurse after it. -/
def removeAllSub (ext : List Char) (s : List Char) : List Char :=
  match _h : findSub ('.' :: ext) s with
  | none => s
  | some i => s.take i ++ removeAllSub ext (s.drop (i + ext.length + 1))
termination_by s.length
decreasing_by
  have hi : i < s.length := findSub_lt _ _ _ (by assumption)
  have := List.length_drop (i + ext.length + 1) s
  omega

/-- The sanitizer as amended after the C7 counterexample: the source
removes *every* occurrence of `"." + ext` (when the name ends with it)
and also replaces `^`. -/
def filenameCleanAmendedC7 (s : List Char) (keepext : Option (List Char)) : List Char :=
  let ext := keepext.getD []
  let s1 := if ¬ ext.isEmpty ∧ ('.' :: ext).isSuffixOf s then removeAllSub ext s else s
  let s2 := pyNFKDascii s1
  let s3 := s2.map sanitizeChar
  if ext.isEmpty then s3 else s3 ++ '.' :: ext

/-! ## Template evaluation (`parseArgs` lines 152-156, `processFile` lines 264-299)

The source renders `eval('f"' + format + '"')`.  Following the spec's
design notes, the evaluator is embedded as a renderer over a small
expression language: brace-delimited spans are evaluated through an
expression context `ctx : String → Option String` (the f-string
rendering of the span's expression; `none` models a Python evaluation
error), non-span text is copied literally, and — as in f-strings — an
unterminated span or a stray closing brace is an error. -/

/-- `dropWhile` never lengthens a list. -/
theorem dropWhile_length_le (p : Char → Bool) (l : List Char) :
    (l.dropWhile p).length ≤ l.length := by
  induction l with
  | nil => simp
  | cons c t ih =>
    rw [List.dropWhile_cons]
    by_cases h : p c = true
    · simp only [h, if_true]
      simp only [List.length_cons]
      omega
    · simp [h]

def renderFmtFuel (ctx : String → Option String) : Nat → List Char → Option (List Char)
  | _, [] => some []
  | 0, _ :: _ => none
  | f + 1, c :: rest =>
    if c = '{' then
      match rest.dropWhile (fun x => x ≠ '}') with
      | [] => none
      | _ :: after =>
        match ctx (String.mk (rest.takeWhile (fun x => x ≠ '}'))) with
        | none => none
        | some v => (renderFmtFuel ctx f after).map (strL v ++ ·)
    else if c = '}' then none
    else (renderFmtFuel ctx f rest).map (c :: ·)

/-- Render a format string.  One fuel unit is spent per consumed span or
literal character, so `s.length` suffices and the `0`-fuel branch is
unreachable (the recursion's arguments only shrink). -/
def renderFmt (ctx : String → Option String) (s : List Char) : Option (List Char) :=
  renderFmtFuel ctx s.length s

/-- The auto-wrapping of `parseArgs` (lines 153-155): a format string
with no `{` is wrapped in one brace pair; the second component records
that the change was reported to the operator (the `info(...)` call). -/
def autoWrapFormat (fmt : List Char) : List Char × Bool :=
  if '{' ∈ fmt then (fmt, false) else ('{' :: (fmt ++ ['}']), true)

/-- The evaluation context `processFile` builds for one document: the
selector binding, the descriptor dict, and the convenience variables
`title`, `h1`, `ext`, `year`, `filename`, `stem`, `archived`, `host`
(lines 272-280).  Only the variable forms documented in the spec are
modelled; any other expression (arbitrary Python under `eval`) is out of
the model and yields `none`. -/
def hotoEval (d : PQDoc) (rdfm : List (String × PyVal)) (stem filename ext : String) :
    String → Option String := fun expr =>
  if (strL "rdf.").isPrefixOf (strL expr) then
    some (dictGetPy rdfm (String.mk ((strL expr).drop 4))).fstr
  else if (strL "sel.").isPrefixOf (strL expr) then
    some (String.mk (selAttr d (String.mk ((strL expr).drop 4))))
  else if expr = "title" then some (String.mk (selAttr d "title"))
  else if expr = "h1" then some (String.mk (selAttr d "h1"))
  else if expr = "ext" then some ext
  else if expr = "year" then some (dictGetPy rdfm "year").fstr
  else if expr = "filename" then some filename
  else if expr = "stem" then some stem
  else if expr = "archived" then some (dictGetPy rdfm "archived").fstr
  else if expr = "host" then some (dictGetPy rdfm "host").fstr
  else none

/-- The strip step of `filenameClean` (proof view of its first `let`). -/
def cleanStripped (s : List Char) (keepext : Option (List Char)) : List Char :=
  if ¬ (keepext.getD []).isEmpty ∧ ('.' :: keepext.getD []).isSuffixOf s then
    removeDotExt (keepext.getD []) s
  else s

/-- The sanitation body of `filenameClean` (NFKD + character replacement). -/
def cleanBody (s : List Char) (keepext : Option (List Char)) : List Char :=
  (pyNFKDascii (cleanStripped s keepext)).map sanitizeChar

/-- The decoded content of the last archive member whose name ends with
`suf` (the member the source loop leaves in its local variable). -/
def lastDecMatch (suf : String) (entries : List (List Char × List Nat)) : Option (List Char) :=
  ((entries.filter (fun e => (strL suf).isSuffixOf e.1)).getLast?).map
    (fun e => e.2.map Char.ofNat)

/-- A grandchild that trips the source's unguarded `attrib.values()[0]`. -/
def badGC (gc : XmlElem) : Prop :=
  gc.attrs = [] ∧ ∃ k ∈ rdfKeys, (('\x7d' :: strL k).isSuffixOf (strL gc.tag)) = true

/-! ## Concrete documents and contexts used by the closed theorems -/

/-- The WebScrapbook-style descriptor tree of the spec scenario for
`tero.maff`: namespace-qualified grandchildren carrying `archivetime`
and `originalurl` as their (single) attribute value. -/
def teroTree : XmlElem :=
  ⟨"RDF:RDF", [],
   [⟨"RDF:Description", [],
     [⟨"\x7bhttp://maf.mozdev.org/metadata/rdf#\x7darchivetime",
        [("RDF:resource", "Sat, 15 Jun 2024 00:00:00 GMT")], []⟩,
      ⟨"\x7bhttp://maf.mozdev.org/metadata/rdf#\x7doriginalurl",
        [("RDF:resource", "https://terokarvinen.com/")], []⟩]⟩]⟩

/-- A parsed document with no matching tags and no meta elements. -/
def blankDoc : PQDoc := ⟨fun _ => "", fun _ => none⟩

/-- A document whose meta-description content is 200 characters long. -/
def longDoc : PQDoc :=
  ⟨fun _ => "",
   fun n => if n = "description" then some (String.mk (List.replicate 200 'a')) else none⟩

/-- A document whose body text makes the 160-character truncation cut
directly after a space. -/
def trickDoc : PQDoc :=
  ⟨fun _ => String.mk (List.replicate 159 'a' ++ [' '] ++ List.replicate 100 'b'),
   fun _ => none⟩

/-- A recognized, namespace-qualified grandchild with no attributes. -/
def gcBad : XmlElem := ⟨"\x7bns\x7dtitle", [], []⟩

/-- A descriptor child wrapping `gcBad`. -/
def childBad : XmlElem := ⟨"RDF:Description", [], [gcBad]⟩

/-- A descriptor tree containing a recognized grandchild with zero
attributes. -/
def badTree : XmlElem := ⟨"RDF:RDF", [], [childBad]⟩

/-- An expression context binding only `h1`. -/
def h1Ctx : String → Option String :=
  fun e => if e = "h1" then some "Tero" else none

/-! ## Generic list lemmas used by the proofs below -/

theorem dropWhile_dropWhile (p : Char → Bool) (l : List Char) :
    (l.dropWhile p).dropWhile p = l.dropWhile p := by
  induction l with
  | nil => simp
  | cons c t ih =>
    rw [List.dropWhile_cons]
    by_cases h : p c = true
    · rw [if_pos h]
      exact ih
    · rw [if_neg h]
      rw [List.dropWhile_cons, if_neg h]

theorem noLead_of_prefix (p : Char → Bool) {x y : List Char} (hpre : x <+: y)
    (hy : y.dropWhile p = y) : x.dropWhile p = x := by
  cases x with
  | nil => simp
  | cons a t =>
    obtain ⟨r, rfl⟩ := hpre
    rw [List.cons_append] at hy
    rw [List.dropWhile_cons] at hy ⊢
    by_cases h : p a = true
    · exfalso
      rw [if_pos h] at hy
      have h1 := congrArg List.length hy
      have h2 := dropWhile_length_le p (t ++ r)
      simp only [List.length_cons] at h1
      omega
    · simp [h]

theorem pyStrip_idem (s : List Char) : pyStrip (pyStrip s) = pyStrip s := by
  unfold pyStrip
  have hynl : (s.dropWhile isPySpace).dropWhile isPySpace = s.dropWhile isPySpace :=
    dropWhile_dropWhile _ _
  have hsuf : ((s.dropWhile isPySpace).reverse.dropWhile isPySpace) <:+
      (s.dropWhile isPySpace).reverse := List.dropWhile_suffix _
  have hpre : ((s.dropWhile isPySpace).reverse.dropWhile isPySpace).reverse <+:
      s.dropWhile isPySpace := by
    have := List.reverse_prefix.mpr hsuf
    simpa using this
  have hx : (((s.dropWhile isPySpace).reverse.dropWhile isPySpace).reverse).dropWhile isPySpace
      = ((s.dropWhile isPySpace).reverse.dropWhile isPySpace).reverse :=
    noLead_of_prefix _ hpre hynl
  rw [hx]
  rw [List.reverse_reverse]
  rw [dropWhile_dropWhile]

theorem pyStrip_length_le (s : List Char) : (pyStrip s).length ≤ s.length := by
  unfold pyStrip
  have h1 := dropWhile_length_le isPySpace s
  have h2 := dropWhile_length_le isPySpace (s.dropWhile isPySpace).reverse
  simp only [List.length_reverse] at h2 ⊢
  omega

/-! ## Selector result lemmas (claim C5) -/

theorem getSelector_length_le (d : PQDoc) (sel : String) (tr : Option (List Char → List Char))
    (n : Nat) : (getSelector d sel tr n).length ≤ n := by
  unfold getSelector
  exact List.length_take_le _ _

theorem selAttr_plain_stripped_bounded (d : PQDoc) (name : String)
    (h1 : name ≠ "__description") (h2 : name ≠ "__keywords") :
    pyStrip (selAttr d name) = selAttr d name ∧ (selAttr d name).length ≤ 160 := by
  unfold selAttr
  rw [if_neg h1, if_neg h2]
  by_cases hz : getSelector d name none 160 = []
  · rw [if_pos hz]
    exact ⟨rfl, by simp⟩
  · rw [if_neg hz]
    refine ⟨pyStrip_idem _, ?_⟩
    have ha := pyStrip_length_le (getSelector d name none 160)
    have hb := getSelector_length_le d name none 160
    omega

theorem selAttr_reserved_stripped (d : PQDoc) (name : String) :
    pyStrip (selAttr d name) = selAttr d name := by
  unfold selAttr
  by_cases h1 : name = "__description"
  · rw [if_pos h1]
    by_cases hz : strL ((d.metaContent "description").getD "") = []
    · rw [if_pos hz]
      rfl
    · rw [if_neg hz]
      exact pyStrip_idem _
  · rw [if_neg h1]
    by_cases h2 : name = "__keywords"
    · rw [if_pos h2]
      by_cases hz : strL ((d.metaContent "keywords").getD "") = []
      · rw [if_pos hz]
        rfl
      · rw [if_neg hz]
        exact pyStrip_idem _
    · rw [if_neg h2]
      by_cases hz : getSelector d name none 160 = []
      · rw [if_pos hz]
        rfl
      · rw [if_neg hz]
        exact pyStrip_idem _

/-! ## Sanitizer lemmas (claims C7, C8) -/

theorem nfkdAscii_of_ascii {c : Char} (h : c.toNat < 128) : nfkdAscii c = [c] := by
  unfold nfkdAscii
  rw [if_pos h]

theorem nfkdAscii_out_ascii {c c' : Char} (h : c' ∈ nfkdAscii c) : c'.toNat < 128 := by
  unfold nfkdAscii at h
  by_cases ha : c.toNat < 128
  · rw [if_pos ha] at h
    simp at h
    rw [h]
    exact ha
  · rw [if_neg ha] at h
    rcases hf : nfkdTable.find? (fun p => p.1 == c) with _ | p
    · rw [hf] at h
      simp at h
    · rw [hf] at h
      simp only [Option.map_some', Option.getD_some] at h
      have hmem := List.mem_of_find?_eq_some hf
      have : ∀ q ∈ nfkdTable, ∀ x ∈ q.2, x.toNat < 128 := by decide
      exact this p hmem c' h

theorem pyNFKDascii_out_ascii {s : List Char} {c : Char} (h : c ∈ pyNFKDascii s) :
    c.toNat < 128 := by
  unfold pyNFKDascii at h
  simp only [List.mem_flatten, List.mem_map] at h
  obtain ⟨l, ⟨x, _, rfl⟩, hcl⟩ := h
  exact nfkdAscii_out_ascii hcl

theorem pyNFKDascii_id_of_ascii {s : List Char} (h : ∀ c ∈ s, c.toNat < 128) :
    pyNFKDascii s = s := by
  induction s with
  | nil => rfl
  | cons c t ih =>
    unfold pyNFKDascii at ih ⊢
    simp only [List.map_cons, List.flatten_cons]
    rw [nfkdAscii_of_ascii (h c (List.mem_cons_self c t))]
    rw [ih (fun x hx => h x (List.mem_cons_of_mem c hx))]
    rfl

theorem sanitizeChar_idem (c : Char) : sanitizeChar (sanitizeChar c) = sanitizeChar c := by
  unfold sanitizeChar
  by_cases h : c ∈ stripChars
  · rw [if_pos h]
    decide
  · rw [if_neg h, if_neg h]

theorem sanitizeChar_ne_dot (c : Char) : sanitizeChar c ≠ '.' := by
  unfold sanitizeChar
  by_cases h : c ∈ stripChars
  · rw [if_pos h]
    decide
  · rw [if_neg h]
    intro hc
    exact h (hc ▸ (by decide : '.' ∈ stripChars))

theorem sanitizeChar_not_strip (c : Char) : sanitizeChar c ∉ stripChars := by
  unfold sanitizeChar
  by_cases h : c ∈ stripChars
  · rw [if_pos h]
    decide
  · rw [if_neg h]
    exact h

theorem sanitizeChar_ascii {c : Char} (h : c.toNat < 128) : (sanitizeChar c).toNat < 128 := by
  unfold sanitizeChar
  by_cases hm : c ∈ stripChars
  · rw [if_pos hm]
    decide
  · rw [if_neg hm]
    exact h

theorem map_sanitize_id {s : List Char} (h : ∀ c ∈ s, c ∉ stripChars) :
    s.map sanitizeChar = s := by
  induction s with
  | nil => rfl
  | cons c t ih =>
    simp only [List.map_cons]
    rw [show sanitizeChar c = c from by
      unfold sanitizeChar
      rw [if_neg (h c (List.mem_cons_self c t))]]
    rw [ih (fun x hx => h x (List.mem_cons_of_mem c hx))]

theorem removeDotExtFuel_nil (ext : List Char) (f : Nat) : removeDotExtFuel ext f [] = [] := by
  cases f <;> rfl

theorem isPrefixOf_cons_ne (ext : List Char) {c : Char} (rest : List Char) (h : c ≠ '.') :
    (('.' :: ext).isPrefixOf (c :: rest)) = false := by
  simp [List.isPrefixOf]
  intro hc
  exact absurd hc.symm h

theorem removeDotExtFuel_boundary (ext : List Char) :
    ∀ (B : List Char) (fuel : Nat), '.' ∉ B → B.length + ext.length + 1 ≤ fuel →
      removeDotExtFuel ext fuel (B ++ '.' :: ext) = B := by
  intro B
  induction B with
  | nil =>
    intro fuel _ hfuel
    cases fuel with
    | zero => omega
    | succ f =>
      simp only [List.nil_append]
      rw [removeDotExtFuel]
      have hp : (('.' :: ext).isPrefixOf ('.' :: ext)) = true :=
        List.isPrefixOf_iff_prefix.mpr (List.prefix_refl _)
      rw [if_pos hp, List.drop_length, removeDotExtFuel_nil]
  | cons c B' ih =>
    intro fuel hdot hfuel
    have hc : c ≠ '.' := by
      intro hc
      exact hdot (hc ▸ List.mem_cons_self c B')
    have hdot' : '.' ∉ B' := fun hm => hdot (List.mem_cons_of_mem c hm)
    cases fuel with
    | zero =>
      simp only [List.length_cons] at hfuel
      omega
    | succ f =>
      simp only [List.cons_append]
      rw [removeDotExtFuel]
      rw [if_neg (by rw [isPrefixOf_cons_ne ext _ hc]; simp)]
      simp only [List.length_cons] at hfuel
      rw [ih f hdot' (by omega)]

theorem filenameClean_body_ascii (s1 : List Char) :
    ∀ c ∈ (pyNFKDascii s1).map sanitizeChar, c.toNat < 128 := by
  intro c hc
  simp only [List.mem_map] at hc
  obtain ⟨c0, hc0, rfl⟩ := hc
  exact sanitizeChar_ascii (pyNFKDascii_out_ascii hc0)

theorem filenameClean_body_nostrip (s1 : List Char) :
    ∀ c ∈ (pyNFKDascii s1).map sanitizeChar, c ∉ stripChars := by
  intro c hc
  simp only [List.mem_map] at hc
  obtain ⟨c0, _, rfl⟩ := hc
  exact sanitizeChar_not_strip c0

theorem filenameClean_body_nodot (s1 : List Char) :
    '.' ∉ (pyNFKDascii s1).map sanitizeChar := by
  intro hm
  exact filenameClean_body_nostrip s1 '.' hm (by decide)

theorem filenameClean_fix (B : List Char) (hascii : ∀ c ∈ B, c.toNat < 128)
    (hnostrip : ∀ c ∈ B, c ∉ stripChars) :
    (pyNFKDascii B).map sanitizeChar = B := by
  rw [pyNFKDascii_id_of_ascii hascii]
  exact map_sanitize_id hnostrip

theorem filenameClean_eq (s : List Char) (keepext : Option (List Char)) :
    filenameClean s keepext =
      if (keepext.getD []).isEmpty then cleanBody s keepext
      else cleanBody s keepext ++ '.' :: keepext.getD [] := rfl

theorem cleanBody_of_clean (keepext : Option (List Char)) (B : List Char)
    (hascii : ∀ c ∈ B, c.toNat < 128) (hnostrip : ∀ c ∈ B, c ∉ stripChars)
    (hnosuffix : ¬ (¬ (keepext.getD []).isEmpty ∧ ('.' :: keepext.getD []).isSuffixOf B)) :
    cleanBody B keepext = B := by
  unfold cleanBody cleanStripped
  rw [if_neg hnosuffix]
  exact filenameClean_fix B hascii hnostrip

theorem cleanBody_of_appended (keepext : Option (List Char)) (B : List Char)
    (he : ¬ (keepext.getD []).isEmpty = true)
    (hascii : ∀ c ∈ B, c.toNat < 128) (hnostrip : ∀ c ∈ B, c ∉ stripChars)
    (hdot : '.' ∉ B) :
    cleanBody (B ++ '.' :: keepext.getD []) keepext = B := by
  unfold cleanBody cleanStripped
  have hsuf : (('.' :: keepext.getD []).isSuffixOf (B ++ '.' :: keepext.getD [])) = true :=
    List.isSuffixOf_iff_suffix.mpr (List.suffix_append _ _)
  rw [if_pos ⟨he, hsuf⟩]
  have hrm : removeDotExt (keepext.getD []) (B ++ '.' :: keepext.getD []) = B := by
    unfold removeDotExt
    apply removeDotExtFuel_boundary _ B _ hdot
    simp only [List.length_append, List.length_cons]
    omega
  rw [hrm]
  exact filenameClean_fix B hascii hnostrip

theorem cleanBody_ascii (s : List Char) (keepext : Option (List Char)) :
    ∀ c ∈ cleanBody s keepext, c.toNat < 128 :=
  filenameClean_body_ascii (cleanStripped s keepext)

theorem cleanBody_nostrip (s : List Char) (keepext : Option (List Char)) :
    ∀ c ∈ cleanBody s keepext, c ∉ stripChars :=
  filenameClean_body_nostrip (cleanStripped s keepext)

theorem cleanBody_nodot (s : List Char) (keepext : Option (List Char)) :
    '.' ∉ cleanBody s keepext :=
  filenameClean_body_nodot (cleanStripped s keepext)

theorem filenameClean_idem (s : List Char) (keepext : Option (List Char)) :
    filenameClean (filenameClean s keepext) keepext = filenameClean s keepext := by
  rw [filenameClean_eq s keepext]
  by_cases he : (keepext.getD []).isEmpty
  · rw [if_pos he]
    rw [filenameClean_eq, if_pos he]
    exact cleanBody_of_clean keepext _ (cleanBody_ascii s keepext) (cleanBody_nostrip s keepext)
      (fun hc => hc.1 he)
  · rw [if_neg he]
    rw [filenameClean_eq, if_neg he]
    rw [cleanBody_of_appended keepext _ he (cleanBody_ascii s keepext)
      (cleanBody_nostrip s keepext) (cleanBody_nodot s keepext)]

theorem findSub_nil (pat : List Char) : findSub pat [] = none := rfl

theorem findSub_cons_pos (pat : List Char) {c : Char} {rest : List Char}
    (hp : (pat.isPrefixOf (c :: rest)) = true) : findSub pat (c :: rest) = some 0 := by
  rw [findSub, if_pos hp]

theorem findSub_cons_neg (pat : List Char) {c : Char} {rest : List Char}
    (hp : ¬ (pat.isPrefixOf (c :: rest)) = true) :
    findSub pat (c :: rest) = (findSub pat rest).map (· + 1) := by
  rw [findSub, if_neg hp]

theorem removeAllSub_of_none (ext s : List Char) (h : findSub ('.' :: ext) s = none) :
    removeAllSub ext s = s := by
  rw [removeAllSub]
  split
  · rfl
  · rename_i i heq
    rw [h] at heq
    cases heq

theorem removeAllSub_of_some (ext s : List Char) (j : Nat)
    (h : findSub ('.' :: ext) s = some j) :
    removeAllSub ext s = s.take j ++ removeAllSub ext (s.drop (j + ext.length + 1)) := by
  rw [removeAllSub]
  split
  · rename_i heq
    rw [h] at heq
    cases heq
  · rename_i i heq
    rw [h] at heq
    injection heq with hi
    rw [hi]

theorem removeAllSub_nil (ext : List Char) : removeAllSub ext [] = [] :=
  removeAllSub_of_none ext [] (findSub_nil _)

theorem removeDot_eq_removeAll (ext : List Char) :
    ∀ (fuel : Nat) (s : List Char), s.length ≤ fuel →
      removeDotExtFuel ext fuel s = removeAllSub ext s := by
  intro fuel
  induction fuel with
  | zero =>
    intro s hs
    have hnil : s = [] := List.length_eq_zero.mp (Nat.le_antisymm hs (Nat.zero_le _))
    subst hnil
    rw [removeDotExtFuel_nil, removeAllSub_nil]
  | succ f ih =>
    intro s hs
    cases s with
    | nil => rw [removeDotExtFuel_nil, removeAllSub_nil]
    | cons c rest =>
      simp only [List.length_cons] at hs
      rw [removeDotExtFuel]
      by_cases hp : (('.' :: ext).isPrefixOf (c :: rest)) = true
      · rw [if_pos hp]
        rw [removeAllSub_of_some ext (c :: rest) 0 (findSub_cons_pos _ hp)]
        simp only [List.take_zero, List.nil_append, Nat.zero_add]
        rw [List.drop_succ_cons]
        have hd := List.length_drop ext.length rest
        rw [ih _ (by omega)]
      · rw [if_neg hp]
        cases hrest : findSub ('.' :: ext) rest with
        | none =>
          have hfind : findSub ('.' :: ext) (c :: rest) = none := by
            rw [findSub_cons_neg _ hp, hrest]
            rfl
          rw [removeAllSub_of_none ext (c :: rest) hfind]
          rw [ih rest (by omega), removeAllSub_of_none ext rest hrest]
        | some j =>
          have hfind : findSub ('.' :: ext) (c :: rest) = some (j + 1) := by
            rw [findSub_cons_neg _ hp, hrest]
            rfl
          rw [removeAllSub_of_some ext (c :: rest) (j + 1) hfind]
          rw [List.take_succ_cons]
          have harith : j + 1 + ext.length + 1 = (j + ext.length + 1) + 1 := by omega
          rw [harith, List.drop_succ_cons]
          rw [ih rest (by omega), removeAllSub_of_some ext rest j hrest]
          simp [List.cons_append]

theorem filenameClean_amended_agrees (s : List Char) (keepext : Option (List Char)) :
    filenameClean s keepext = filenameCleanAmendedC7 s keepext := by
  simp only [filenameClean, filenameCleanAmendedC7]
  rw [show removeDotExt (keepext.getD []) s = removeAllSub (keepext.getD []) s from
    removeDot_eq_removeAll _ _ s (Nat.le_refl _)]

theorem filenameClean_keeps_ext (s : List Char) (keepext : Option (List Char))
    (he : ¬ (keepext.getD []).isEmpty = true) :
    ('.' :: keepext.getD []) <:+ filenameClean s keepext := by
  rw [filenameClean_eq, if_neg he]
  exact List.suffix_append _ _

/-! ## Loader selection lemmas (claims C2, C3, C4) -/

theorem utf8DecodeStrictFuel_ascii :
    ∀ (f : Nat) (bs : List Nat), bs.length ≤ f → (∀ b ∈ bs, b < 128) →
      utf8DecodeStrictFuel f bs = some (bs.map Char.ofNat) := by
  intro f
  induction f with
  | zero =>
    intro bs hlen _
    have hnil : bs = [] := List.length_eq_zero.mp (Nat.le_antisymm hlen (Nat.zero_le _))
    subst hnil
    rfl
  | succ f ih =>
    intro bs hlen h
    cases bs with
    | nil => rfl
    | cons b rest =>
      have hb : b < 128 := h b (List.mem_cons_self b rest)
      rw [utf8DecodeStrictFuel, if_pos hb]
      simp only [List.length_cons] at hlen
      rw [ih rest (by omega) (fun x hx => h x (List.mem_cons_of_mem b hx))]
      rfl

theorem utf8DecodeStrict_ascii (bs : List Nat) (h : ∀ b ∈ bs, b < 128) :
    utf8DecodeStrict bs = some (bs.map Char.ofNat) :=
  utf8DecodeStrictFuel_ascii bs.length bs (Nat.le_refl _) h

theorem rdf_suffix_not_html {name : List Char}
    (h : ((strL "/index.rdf").isSuffixOf name) = true) :
    ((strL "/index.html").isSuffixOf name) = false := by
  by_contra hcon
  rw [Bool.not_eq_false] at hcon
  have h1 := List.isSuffixOf_iff_suffix.mp h
  have h2 := List.isSuffixOf_iff_suffix.mp hcon
  rcases List.suffix_or_suffix_of_suffix h1 h2 with h3 | h3
  · have hb := List.isSuffixOf_iff_suffix.mpr h3
    revert hb
    decide
  · have hb := List.isSuffixOf_iff_suffix.mpr h3
    revert hb
    decide

theorem getLast?_cons_or {α : Type} (a : α) (l : List α) :
    (a :: l).getLast? = l.getLast?.or (some a) := by
  induction l generalizing a with
  | nil => rfl
  | cons b t ih =>
    rw [List.getLast?_cons_cons, ih b]
    cases h : t.getLast? <;> rfl

theorem lastDecMatch_cons_pos (suf : String) (name : List Char) (bs : List Nat)
    (rest : List (List Char × List Nat)) (h : ((strL suf).isSuffixOf name) = true) :
    lastDecMatch suf ((name, bs) :: rest) =
      (lastDecMatch suf rest).or (some (bs.map Char.ofNat)) := by
  unfold lastDecMatch
  rw [List.filter_cons_of_pos (by exact h)]
  rw [getLast?_cons_or]
  rw [Option.map_or']
  rfl

theorem lastDecMatch_cons_neg (suf : String) (name : List Char) (bs : List Nat)
    (rest : List (List Char × List Nat)) (h : ((strL suf).isSuffixOf name) = false) :
    lastDecMatch suf ((name, bs) :: rest) = lastDecMatch suf rest := by
  unfold lastDecMatch
  rw [List.filter_cons_of_neg (by simp [h])]

theorem readPathZipLoop_last :
    ∀ (entries : List (List Char × List Nat)) (html rdf : Option (List Char)),
      (∀ e ∈ entries, ∀ b ∈ e.2, b < 128) →
      readPathZipLoop entries html rdf =
        match (lastDecMatch "/index.html" entries).or html with
        | none => .error .unboundLocal
        | some hh => .ok (hh, (lastDecMatch "/index.rdf" entries).or rdf) := by
  intro entries
  induction entries with
  | nil =>
    intro html rdf _
    cases html <;> rfl
  | cons e rest ih =>
    obtain ⟨name, bs⟩ := e
    intro html rdf h
    have hrest : ∀ x ∈ rest, ∀ b ∈ x.2, b < 128 :=
      fun x hx => h x (List.mem_cons_of_mem _ hx)
    have hbs : ∀ b ∈ bs, b < 128 := h (name, bs) (List.mem_cons_self _ _)
    rw [readPathZipLoop]
    by_cases hrdf : ((strL "/index.rdf").isSuffixOf name) = true
    · rw [if_pos hrdf]
      rw [utf8DecodeStrict_ascii bs hbs]
      show readPathZipLoop rest html (some (bs.map Char.ofNat)) = _
      rw [ih html (some (bs.map Char.ofNat)) hrest]
      rw [lastDecMatch_cons_neg _ _ _ _ (rdf_suffix_not_html hrdf)]
      rw [lastDecMatch_cons_pos _ _ _ _ hrdf]
      rw [Option.or_assoc]
      rfl
    · rw [if_neg hrdf]
      rw [Bool.not_eq_true] at hrdf
      by_cases hhtml : ((strL "/index.html").isSuffixOf name) = true
      · rw [if_pos hhtml]
        rw [utf8DecodeStrict_ascii bs hbs]
        show readPathZipLoop rest (some (bs.map Char.ofNat)) rdf = _
        rw [ih (some (bs.map Char.ofNat)) rdf hrest]
        rw [lastDecMatch_cons_pos _ _ _ _ hhtml]
        rw [lastDecMatch_cons_neg _ _ _ _ hrdf]
        rw [Option.or_assoc]
        rfl
      · rw [if_neg hhtml]
        rw [Bool.not_eq_true] at hhtml
        rw [ih html rdf hrest]
        rw [lastDecMatch_cons_neg _ _ _ _ hhtml, lastDecMatch_cons_neg _ _ _ _ hrdf]

theorem utf8Fuel_replace_of_strict :
    ∀ (f : Nat) (bs : List Nat) (cs : List Char),
      utf8DecodeStrictFuel f bs = some cs → utf8DecodeReplaceFuel f bs = cs := by
  intro f
  induction f with
  | zero =>
    intro bs cs h
    cases bs with
    | nil =>
      injection h with h
    | cons b rest =>
      exact Option.noConfusion h
  | succ f ih =>
    intro bs cs h
    cases bs with
    | nil =>
      injection h with h
    | cons b rest =>
      rw [utf8DecodeStrictFuel] at h
      rw [utf8DecodeReplaceFuel]
      by_cases hb : b < 128
      · rw [if_pos hb] at h
        rw [if_pos hb]
        cases hs : utf8DecodeStrictFuel f rest with
        | none =>
          rw [hs] at h
          exact Option.noConfusion h
        | some cs2 =>
          rw [hs] at h
          simp only [Option.map_some'] at h
          injection h with h
          rw [ih rest cs2 hs, h]
      · rw [if_neg hb] at h
        rw [if_neg hb]
        cases hm : utf8Multi b rest with
        | none =>
          rw [hm] at h
          exact Option.noConfusion h
        | some p =>
          obtain ⟨c, r⟩ := p
          rw [hm] at h
          have h2 : (utf8DecodeStrictFuel f r).map (c :: ·) = some cs := h
          show c :: utf8DecodeReplaceFuel f r = cs
          cases hs : utf8DecodeStrictFuel f r with
          | none =>
            rw [hs] at h2
            exact Option.noConfusion h2
          | some cs2 =>
            rw [hs] at h2
            simp only [Option.map_some'] at h2
            injection h2 with h2
            rw [ih r cs2 hs, h2]

theorem utf8Replace_of_strict (bs : List Nat) (cs : List Char)
    (h : utf8DecodeStrict bs = some cs) : utf8DecodeReplace bs = cs :=
  utf8Fuel_replace_of_strict bs.length bs cs h

theorem utf8Strict_none_or_replace (bs : List Nat) :
    utf8DecodeStrict bs = none ∨ utf8DecodeStrict bs = some (utf8DecodeReplace bs) := by
  cases h : utf8DecodeStrict bs with
  | none => exact Or.inl rfl
  | some cs =>
    right
    rw [utf8Replace_of_strict bs cs h]

/-! ## Descriptor parser error lemmas (claim C10) -/

theorem rdfKeyStep_match_empty (gc : XmlElem) (m : List (String × String)) (key : String)
    (hk : (('\x7d' :: strL key).isSuffixOf (strL gc.tag)) = true) (hattrs : gc.attrs = []) :
    rdfKeyStep gc m key = .error .indexError := by
  unfold rdfKeyStep
  rw [if_pos hk, hattrs]

theorem rdfKeyStep_nomatch (gc : XmlElem) (m : List (String × String)) (key : String)
    (hk : ¬ (('\x7d' :: strL key).isSuffixOf (strL gc.tag)) = true) :
    rdfKeyStep gc m key = .ok m := by
  unfold rdfKeyStep
  rw [if_neg hk]

theorem rdfKeyFold_error (gc : XmlElem) (hattrs : gc.attrs = []) :
    ∀ (keys : List String) (m : List (String × String)),
      (∃ k ∈ keys, (('\x7d' :: strL k).isSuffixOf (strL gc.tag)) = true) →
      keys.foldlM (rdfKeyStep gc) m = .error .indexError := by
  intro keys
  induction keys with
  | nil =>
    intro m hex
    rcases hex with ⟨k, hk, _⟩
    cases hk
  | cons k ks ih =>
    intro m hex
    rw [List.foldlM_cons]
    by_cases hk : (('\x7d' :: strL k).isSuffixOf (strL gc.tag)) = true
    · rw [rdfKeyStep_match_empty gc m k hk hattrs]
      rfl
    · rw [rdfKeyStep_nomatch gc m k hk]
      show ks.foldlM (rdfKeyStep gc) m = .error .indexError
      rcases hex with ⟨k2, hk2mem, hk2⟩
      rcases List.mem_cons.mp hk2mem with heq | hmem2
      · exact absurd (heq ▸ hk2) hk
      · exact ih m ⟨k2, hmem2, hk2⟩

theorem rdfKeyFold_shape (gc : XmlElem) :
    ∀ (keys : List String) (m : List (String × String)),
      (∃ m2, keys.foldlM (rdfKeyStep gc) m = .ok m2) ∨
        keys.foldlM (rdfKeyStep gc) m = .error .indexError := by
  intro keys
  induction keys with
  | nil =>
    intro m
    exact Or.inl ⟨m, rfl⟩
  | cons k ks ih =>
    intro m
    rw [List.foldlM_cons]
    by_cases hk : (('\x7d' :: strL k).isSuffixOf (strL gc.tag)) = true
    · cases hattrs : gc.attrs with
      | nil =>
        rw [rdfKeyStep_match_empty gc m k hk hattrs]
        exact Or.inr rfl
      | cons a rest =>
        have hstep : rdfKeyStep gc m k = .ok (baseSet m k a.2) := by
          unfold rdfKeyStep
          rw [if_pos hk, hattrs]
        rw [hstep]
        exact ih (baseSet m k a.2)
    · rw [rdfKeyStep_nomatch gc m k hk]
      exact ih m

theorem rdfGCFold_error (gcs : List XmlElem) :
    ∀ m, (∃ g ∈ gcs, badGC g) →
      gcs.foldlM (fun m gc => rdfKeys.foldlM (rdfKeyStep gc) m) m = .error .indexError := by
  induction gcs with
  | nil =>
    intro m hex
    rcases hex with ⟨g, hg, _⟩
    cases hg
  | cons g gs ih =>
    intro m hex
    rw [List.foldlM_cons]
    rcases rdfKeyFold_shape g rdfKeys m with ⟨m2, hok⟩ | herr
    · rw [hok]
      show gs.foldlM (fun m gc => rdfKeys.foldlM (rdfKeyStep gc) m) m2 = .error .indexError
      rcases hex with ⟨g2, hg2mem, hg2⟩
      rcases List.mem_cons.mp hg2mem with heq | hmem2
      · exfalso
        have := rdfKeyFold_error g (heq ▸ hg2).1 rdfKeys m (heq ▸ hg2).2
        rw [this] at hok
        cases hok
      · exact ih m2 ⟨g2, hmem2, hg2⟩
    · rw [herr]
      rfl

theorem rdfGCFold_shape (gcs : List XmlElem) :
    ∀ m, (∃ m2, gcs.foldlM (fun m gc => rdfKeys.foldlM (rdfKeyStep gc) m) m = .ok m2) ∨
      gcs.foldlM (fun m gc => rdfKeys.foldlM (rdfKeyStep gc) m) m = .error .indexError := by
  induction gcs with
  | nil =>
    intro m
    exact Or.inl ⟨m, rfl⟩
  | cons g gs ih =>
    intro m
    rw [List.foldlM_cons]
    rcases rdfKeyFold_shape g rdfKeys m with ⟨m2, hok⟩ | herr
    · rw [hok]
      exact ih m2
    · rw [herr]
      exact Or.inr rfl

theorem rdfChildFold_error (cs : List XmlElem) :
    ∀ m, (∃ c ∈ cs, ∃ g ∈ c.children, badGC g) →
      cs.foldlM
        (fun m child => child.children.foldlM (fun m gc => rdfKeys.foldlM (rdfKeyStep gc) m) m)
        m = .error .indexError := by
  induction cs with
  | nil =>
    intro m hex
    rcases hex with ⟨c, hc, _⟩
    cases hc
  | cons c0 cs ih =>
    intro m hex
    rw [List.foldlM_cons]
    rcases rdfGCFold_shape c0.children m with ⟨m2, hok⟩ | herr
    · rw [hok]
      show cs.foldlM
        (fun m child => child.children.foldlM (fun m gc => rdfKeys.foldlM (rdfKeyStep gc) m) m)
        m2 = .error .indexError
      rcases hex with ⟨c, hcmem, hg⟩
      rcases List.mem_cons.mp hcmem with heq | hmem
      · exfalso
        have herr2 := rdfGCFold_error c0.children m (heq ▸ hg)
        rw [herr2] at hok
        cases hok
      · exact ih m2 ⟨c, hmem, hg⟩
    · rw [herr]
      rfl

theorem rdfCollect_error (root : XmlElem)
    (h : ∃ c ∈ root.children, ∃ g ∈ c.children, badGC g) :
    rdfCollect root = .error .indexError := by
  unfold rdfCollect
  exact rdfChildFold_error root.children [] h

theorem rdfFromTree_error (root : XmlElem)
    (h : ∃ c ∈ root.children, ∃ g ∈ c.children, badGC g) :
    rdfFromTree (some root) = .error .indexError := by
  show (rdfCollect root).bind rdfDerive = .error .indexError
  rw [rdfCollect_error root h]
  rfl

/-! ## Template auto-wrap lemmas (claim C9) -/

theorem dropWhile_append_all (p : Char → Bool) (l l2 : List Char) (h : ∀ c ∈ l, p c = true) :
    (l ++ l2).dropWhile p = l2.dropWhile p := by
  induction l with
  | nil => rfl
  | cons c t ih =>
    rw [List.cons_append, List.dropWhile_cons, if_pos (h c (List.mem_cons_self _ _))]
    exact ih (fun x hx => h x (List.mem_cons_of_mem _ hx))

theorem takeWhile_append_all (p : Char → Bool) (l l2 : List Char) (h : ∀ c ∈ l, p c = true) :
    (l ++ l2).takeWhile p = l ++ l2.takeWhile p := by
  induction l with
  | nil => rfl
  | cons c t ih =>
    rw [List.cons_append, List.takeWhile_cons, if_pos (h c (List.mem_cons_self _ _))]
    rw [ih (fun x hx => h x (List.mem_cons_of_mem _ hx))]
    rfl

theorem renderFmt_single_span (ctx : String → Option String) (fmt : List Char)
    (h2 : '}' ∉ fmt) (v : String) (hv : ctx (String.mk fmt) = some v) :
    renderFmt ctx ('{' :: (fmt ++ ['}'])) = some (strL v) := by
  have hall : ∀ c ∈ fmt, (decide (c ≠ '}')) = true := by
    intro c hc
    simp only [decide_eq_true_eq]
    intro hcc
    exact h2 (hcc ▸ hc)
  unfold renderFmt
  have hl : ('{' :: (fmt ++ ['}'])).length = fmt.length + 1 + 1 := by
    simp
  rw [hl]
  rw [renderFmtFuel]
  rw [if_pos rfl]
  rw [dropWhile_append_all _ _ _ hall]
  rw [show (['}'] : List Char).dropWhile (fun x => decide (x ≠ '}')) = ['}'] from rfl]
  rw [takeWhile_append_all _ _ _ hall]
  rw [show (['}'] : List Char).takeWhile (fun x => decide (x ≠ '}')) = [] from rfl]
  rw [List.append_nil]
  rw [hv]
  show (renderFmtFuel ctx (fmt.length + 1) []).map (strL v ++ ·) = some (strL v)
  rw [show renderFmtFuel ctx (fmt.length + 1) [] = some [] from rfl]
  rw [Option.map_some']
  rw [List.append_nil]

/-! ## Claim theorems -/

/-- C1 counterexample: on an archive document with no descriptor, the
format string `{rdf.year} {year}` renders as the literal text
`None None` — the missing descriptor key and the convenience variable
derived from it reach the f-string as Python `None`, contradicting the
claim that every missing value renders as the empty string. -/
theorem c1_counterexample :
    renderFmt (hotoEval blankDoc [] "tero" "tero.maff" "maff") (strL "{rdf.year} {year}")
      = some (strL "None None") ∧ strL "None None" ≠ [] := by
  constructor
  · decide
  · decide

/-- C1 amended: a selector matching nothing renders as the empty string,
but a missing descriptor key (and hence the descriptor-derived
convenience variables `year`, `archived`, `host`) evaluates to Python
`None` and renders as the literal token `None`. -/
theorem c1_amended_missing_values (d : PQDoc) (q : String) (rdfm : List (String × PyVal))
    (k : String) (hq1 : q ≠ "__description") (hq2 : q ≠ "__keywords")
    (hmiss : d.textOf q = "") (hk : dictFind? rdfm k = none) :
    selAttr d q = [] ∧ (dictGetPy rdfm k).fstr = "None" := by
  constructor
  · simp only [selAttr]
    rw [if_neg hq1, if_neg hq2]
    have hg : getSelector d q none 160 = [] := by
      simp only [getSelector]
      rw [hmiss]
      rfl
    rw [hg]
    rfl
  · simp only [dictGetPy]
    rw [hk]
    rfl

/-- Witness for the C1 amended theorem at a blank document and an empty
descriptor dict. -/
theorem c1_amended_missing_values_witness :
    selAttr blankDoc "h1" = [] ∧ (dictGetPy [] "year").fstr = "None" :=
  c1_amended_missing_values blankDoc "h1" [] "year" (by decide) (by decide) rfl rfl

/-- C2 (code bug): an archive containing no member ending in
`/index.html` makes `readPath` fail with `UnboundLocalError` (the source
never initializes `htmlStr` before the loop) instead of returning an
empty extraction context — both with no recognized member at all and
with only a descriptor member. -/
theorem c2_missing_markup_entry_crashes :
    readPathZip [(strL "content/style.css", [])] = .error .unboundLocal ∧
    readPathZip [(strL "x/index.rdf", [60])] = .error .unboundLocal := by
  constructor
  · decide
  · decide

/-- C3 counterexample: with two `/index.html` members `A` then `B`, the
loader returns `B` — the *last* match in enumeration order, not the
first; likewise the last of two `/index.rdf` members. -/
theorem c3_counterexample :
    readPathZip [(strL "a/index.html", [65]), (strL "b/index.html", [66])]
      = .ok (strL "B", none) ∧
    strL "B" ≠ strL "A" ∧
    readPathZip [(strL "a/index.rdf", [65]), (strL "b/index.rdf", [66]),
      (strL "c/index.html", [72])] = .ok (strL "H", some (strL "B")) := by
  refine ⟨by decide, by decide, by decide⟩

/-- C3 amended: for every archive (here with ASCII member contents, so
that decoding succeeds), `readPath` returns the text of the *last*
member whose name ends with `/index.html` and the last ending with
`/index.rdf`, each role independently; with no markup match it fails
with `UnboundLocalError`. -/
theorem c3_amended_last_match (entries : List (List Char × List Nat))
    (hascii : ∀ e ∈ entries, ∀ b ∈ e.2, b < 128) :
    readPathZip entries =
      match lastDecMatch "/index.html" entries with
      | none => .error .unboundLocal
      | some hh => .ok (hh, lastDecMatch "/index.rdf" entries) := by
  unfold readPathZip
  rw [readPathZipLoop_last entries none none hascii]
  rw [Option.or_none, Option.or_none]

/-- Witness for the C3 amended theorem on a two-markup-member archive. -/
theorem c3_amended_last_match_witness :
    readPathZip [(strL "a/index.html", [65]), (strL "b/index.html", [66])] =
      match lastDecMatch "/index.html"
          [(strL "a/index.html", [65]), (strL "b/index.html", [66])] with
      | none => .error .unboundLocal
      | some hh => .ok (hh, lastDecMatch "/index.rdf"
          [(strL "a/index.html", [65]), (strL "b/index.html", [66])]) :=
  c3_amended_last_match _ (by decide)

/-- C4 counterexample: a matched archive member whose bytes are not
valid UTF-8 (the single byte `0xFF`) makes loading fail with a decode
error instead of replacing the byte, while replacement decoding would
have produced U+FFFD. -/
theorem c4_counterexample :
    readPathZip [(strL "p/index.html", [255])] = .error .unicodeDecode ∧
    utf8DecodeReplace [255] = [replChar] := by
  constructor
  · decide
  · decide

/-- C4 amended: plain documents decode with byte replacement (never
failing, and agreeing with strict decoding whenever the bytes are valid
UTF-8), but a matched archive member is decoded strictly and loading
fails with a decode error exactly when its bytes are invalid. -/
theorem c4_amended_decode_split (bs : List Nat) :
    readPathPlain bs = (utf8DecodeReplace bs, none) ∧
    (utf8DecodeStrict bs = none →
      readPathZip [(strL "p/index.html", bs)] = .error .unicodeDecode) ∧
    (utf8DecodeStrict bs = none ∨ utf8DecodeStrict bs = some (utf8DecodeReplace bs)) := by
  refine ⟨rfl, ?_, utf8Strict_none_or_replace bs⟩
  intro h
  unfold readPathZip
  rw [readPathZipLoop]
  rw [if_neg (by decide), if_pos (by decide)]
  rw [h]

/-- Witness for the C4 amended theorem at the invalid byte `0xFF`. -/
theorem c4_amended_decode_split_witness :
    readPathPlain [255] = (utf8DecodeReplace [255], none) ∧
    readPathZip [(strL "p/index.html", [255])] = .error .unicodeDecode ∧
    (utf8DecodeStrict [255] = none ∨
      utf8DecodeStrict [255] = some (utf8DecodeReplace [255])) :=
  ⟨(c4_amended_decode_split [255]).1,
   (c4_amended_decode_split [255]).2.1 (by decide),
   (c4_amended_decode_split [255]).2.2⟩

/-- C5 counterexample: the reserved `__description` attribute returns
the full 200-character meta content (no 160-character cap), and a
callable-style result truncated at 160 characters can end in whitespace
(so it is not stripped). -/
theorem c5_counterexample :
    (selAttr longDoc "__description").length = 200 ∧
    pyStrip (selCall trickDoc "p" none) ≠ selCall trickDoc "p" none := by
  constructor
  · decide
  · decide

/-- C5 amended: ordinary attribute-style queries are stripped and capped
at 160 characters; callable-style queries are capped at 160 characters
(stripping happens before truncation, which may leave trailing
whitespace); the two reserved meta attributes are stripped but not
capped. -/
theorem c5_amended_strip_cap (d : PQDoc) (name : String)
    (h1 : name ≠ "__description") (h2 : name ≠ "__keywords")
    (sel : String) (tr : Option (List Char → List Char)) :
    pyStrip (selAttr d name) = selAttr d name ∧ (selAttr d name).length ≤ 160 ∧
    (selCall d sel tr).length ≤ 160 ∧
    pyStrip (selAttr d "__description") = selAttr d "__description" ∧
    pyStrip (selAttr d "__keywords") = selAttr d "__keywords" :=
  ⟨(selAttr_plain_stripped_bounded d name h1 h2).1,
   (selAttr_plain_stripped_bounded d name h1 h2).2,
   getSelector_length_le d sel tr 160,
   selAttr_reserved_stripped d "__description",
   selAttr_reserved_stripped d "__keywords"⟩

/-- Witness for the C5 amended theorem at the long-description document. -/
theorem c5_amended_strip_cap_witness :
    pyStrip (selAttr longDoc "h1") = selAttr longDoc "h1" ∧
    (selAttr longDoc "h1").length ≤ 160 ∧
    (selCall longDoc "p" none).length ≤ 160 ∧
    pyStrip (selAttr longDoc "__description") = selAttr longDoc "__description" ∧
    pyStrip (selAttr longDoc "__keywords") = selAttr longDoc "__keywords" :=
  c5_amended_strip_cap longDoc "h1" (by decide) (by decide) "p" none

/-- C6: on the spec's `tero.maff` descriptor (archivetime
`Sat, 15 Jun 2024 00:00:00 GMT`, originalurl
`https://terokarvinen.com/`), the parser derives
`archived = "2024-06-15 w24 Sat"`, `year = 2024` and
`host = "terokarvinen.com"`. -/
theorem c6_descriptor_scenario :
    (rdfFromTree (some teroTree)).map (fun m =>
      (dictGetPy m "archived", dictGetPy m "year", dictGetPy m "host")) =
    .ok (.vStr "2024-06-15 w24 Sat", .vInt 2024, .vStr "terokarvinen.com") := by
  decide

/-- C7 counterexample: `filenameClean` differs from the claim's steps in
two ways — `"a.html.b.html"` with extension `html` loses its *interior*
`.html` too (yielding `a_b.html`, where stripping only the trailing
suffix would give `a_html_b.html`), and the caret in `"x^y"` is also
replaced by an underscore although the claim lists only the five
characters `: / [ ] .`. -/
theorem c7_counterexample :
    filenameClean (strL "a.html.b.html") (some (strL "html"))
      ≠ filenameCleanClaimC7 (strL "a.html.b.html") (some (strL "html")) ∧
    filenameClean (strL "x^y") none ≠ filenameCleanClaimC7 (strL "x^y") none ∧
    filenameClean (strL "a.html.b.html") (some (strL "html")) = strL "a_b.html" ∧
    filenameClean (strL "x^y") none = strL "x_y" := by
  refine ⟨by decide, by decide, by decide, by decide⟩

/-- C7 amended: the sanitizer performs, in order: removal of *every*
occurrence of `"." + ext` when the name ends with that suffix, Unicode
compatibility decomposition with ASCII filtering, replacement of each of
the *six* characters `: / ^ [ ] .` by an underscore, and verbatim
re-appending of `"." + ext`; it is total, and the extension is always a
suffix of the result. -/
theorem c7_amended_steps (s : List Char) (keepext : Option (List Char)) :
    filenameClean s keepext = filenameCleanAmendedC7 s keepext ∧
    (¬ (keepext.getD []).isEmpty = true →
      ('.' :: keepext.getD []) <:+ filenameClean s keepext) :=
  ⟨filenameClean_amended_agrees s keepext,
   fun he => filenameClean_keeps_ext s keepext he⟩

/-- Witness for the C7 amended theorem at a name containing a slash. -/
theorem c7_amended_steps_witness :
    filenameClean (strL "a/b") (some (strL "html"))
      = filenameCleanAmendedC7 (strL "a/b") (some (strL "html")) ∧
    ('.' :: (some (strL "html")).getD []) <:+ filenameClean (strL "a/b") (some (strL "html")) :=
  ⟨(c7_amended_steps (strL "a/b") (some (strL "html"))).1,
   (c7_amended_steps (strL "a/b") (some (strL "html"))).2 (by decide)⟩

/-- C8: filename sanitization is idempotent — cleaning an
already-cleaned name with the same extension changes nothing. -/
theorem c8_sanitize_idempotent (s : List Char) (keepext : Option (List Char)) :
    filenameClean (filenameClean s keepext) keepext = filenameClean s keepext :=
  filenameClean_idem s keepext

/-- C9: a format string containing no opening brace (hence no span) is
wrapped in exactly one brace pair, the wrapping is reported to the
operator, rendering the wrapped string is identical to rendering the
explicitly brace-wrapped string, and — when the string also contains no
closing brace — it is evaluated as a single variable reference. -/
theorem c9_autowrap (fmt : List Char) (ctx : String → Option String) (h : '{' ∉ fmt) :
    (autoWrapFormat fmt).1 = '{' :: (fmt ++ ['}']) ∧
    (autoWrapFormat fmt).2 = true ∧
    renderFmt ctx (autoWrapFormat fmt).1 = renderFmt ctx ('{' :: (fmt ++ ['}'])) ∧
    ('}' ∉ fmt → ∀ v, ctx (String.mk fmt) = some v →
      renderFmt ctx (autoWrapFormat fmt).1 = some (strL v)) := by
  have hw : autoWrapFormat fmt = ('{' :: (fmt ++ ['}']), true) := by
    unfold autoWrapFormat
    rw [if_neg h]
  rw [hw]
  refine ⟨rfl, rfl, rfl, ?_⟩
  intro h2 v hv
  exact renderFmt_single_span ctx fmt h2 v hv

/-- Witness for C9 at the bare token `h1` with a context binding `h1`. -/
theorem c9_autowrap_witness :
    (autoWrapFormat (strL "h1")).1 = '{' :: (strL "h1" ++ ['}']) ∧
    (autoWrapFormat (strL "h1")).2 = true ∧
    renderFmt h1Ctx (autoWrapFormat (strL "h1")).1
      = renderFmt h1Ctx ('{' :: (strL "h1" ++ ['}'])) ∧
    renderFmt h1Ctx (autoWrapFormat (strL "h1")).1 = some (strL "Tero") := by
  obtain ⟨a, b, c, d⟩ := c9_autowrap (strL "h1") h1Ctx (by decide)
  exact ⟨a, b, c, d (by decide) "Tero" (by decide)⟩

/-- C10: any descriptor tree with a grandchild whose (namespace
qualified) tag ends in `"}" ++ key` for a recognized key but which
carries zero attributes makes descriptor construction raise
(`IndexError` from the unguarded `attrib.values()[0]`), rather than
skipping the element or storing an empty value. -/
theorem c10_descriptor_zero_attrs_raises (root : XmlElem)
    (h : ∃ c ∈ root.children, ∃ g ∈ c.children,
      g.attrs = [] ∧ ∃ k ∈ rdfKeys, (('\x7d' :: strL k).isSuffixOf (strL g.tag)) = true) :
    rdfFromTree (some root) = .error .indexError :=
  rdfFromTree_error root h

/-- Witness for C10 at a concrete tree with an attribute-less `title`
grandchild. -/
theorem c10_descriptor_zero_attrs_raises_witness :
    rdfFromTree (some badTree) = .error .indexError :=
  c10_descriptor_zero_attrs_raises badTree
    ⟨childBad, List.mem_cons_self _ _, gcBad, List.mem_cons_self _ _, rfl,
     "title", by decide, by decide⟩
